import Mathlib

/-!
Verification of the events-app data layer against its specification.

The development shallowly embeds the server actions of the repository
(`src/lib/utils.ts`, `src/lib/actions/*.ts` and the unnamed server-action
and pagination-component files) as pure Lean functions.  The external
document store is modelled as explicit lists of documents, the external
regular-expression engine as an abstract boolean matcher passed in as a
parameter, and the `query-string` npm library (an external collaborator of
`formUrlQuery` / `removeKeysFromQuery`) as executable parse / stringify
functions over lists of characters, including the percent-escaping of the
query-delimiter characters.
-/

set_option maxHeartbeats 1000000

namespace EventsApp

/-! ## JavaScript values and the error-handling policy (`src/lib/utils.ts` `handleError`) -/

/-- A JavaScript runtime value, as far as `handleError` can observe it
(`typeof error === 'string'` versus everything else, which is passed to
`JSON.stringify`). -/
inductive JsValue where
  | str : String → JsValue
  | num : Int → JsValue
  | bool : Bool → JsValue
  | null : JsValue
  | arr : List JsValue → JsValue
  | obj : List (String × JsValue) → JsValue
deriving Inhabited

/-- One JSON string escape step, covering the quote and backslash escapes of
`JSON.stringify` for the characters the model distinguishes. -/
def jsonEscapeChar (c : Char) : List Char :=
  if c = '\x22' then ['\\', '\x22']
  else if c = '\\' then ['\\', '\\']
  else [c]

/-- JSON escaping of the body of a string literal. -/
def jsonEscape (s : String) : String :=
  String.mk ((s.toList.map jsonEscapeChar).flatten)

mutual

/-- Embedding of `JSON.stringify` on the modelled JavaScript values. -/
def jsonStringify : JsValue → String
  | .str s => "\x22" ++ jsonEscape s ++ "\x22"
  | .num i => toString i
  | .bool b => if b then "true" else "false"
  | .null => "null"
  | .arr l => "[" ++ jsonStringifyArr l ++ "]"
  | .obj l => "\x7b" ++ jsonStringifyObj l ++ "\x7d"

/-- Comma-separated serialization of a JSON array body. -/
def jsonStringifyArr : List JsValue → String
  | [] => ""
  | [v] => jsonStringify v
  | v :: vs => jsonStringify v ++ "," ++ jsonStringifyArr vs

/-- Comma-separated serialization of a JSON object body. -/
def jsonStringifyObj : List (String × JsValue) → String
  | [] => ""
  | [(k, v)] => "\x22" ++ jsonEscape k ++ "\x22:" ++ jsonStringify v
  | (k, v) :: kvs =>
      "\x22" ++ jsonEscape k ++ "\x22:" ++ jsonStringify v ++ "," ++ jsonStringifyObj kvs

end

/-- A value thrown by the embedded code: either a freshly constructed
`new Error(message)` or a rethrow of the original caught value. -/
inductive JsThrown where
  | errorObj : String → JsThrown
  | raw : JsValue → JsThrown

/-- The message `handleError` gives to the `Error` it constructs:
`typeof error === 'string' ? error : JSON.stringify(error)`. -/
def handleErrorMessage (error : JsValue) : String :=
  match error with
  | .str s => s
  | e => jsonStringify e

/-- Embedding of `handleError` from `src/lib/utils.ts`: it logs the caught
value with `console.error` (first component: the emitted log entries) and
throws `new Error(...)` with the message above (second component). -/
def handleError (error : JsValue) : List JsValue × JsThrown :=
  ([error], JsThrown.errorObj (handleErrorMessage error))

/-- The `try/catch` shape shared by every data-layer function:
`try { ...op... } catch (error) { handleError(error) }`.  On success nothing
is logged and the value is returned; on failure the caught value is passed
to `handleError`, whose throw propagates out of the catch block. -/
def runDataLayer {α : Type} (op : Except JsValue α) : List JsValue × Except JsThrown α :=
  match op with
  | .ok a => ([], .ok a)
  | .error e =>
      let r := handleError e
      (r.1, .error r.2)

/-- The `try/catch` shape of `checkoutOrder`:
`try { ...op... } catch (error) { throw error }` — the original caught value
is rethrown unchanged and nothing is logged. -/
def checkoutOrderRun {α : Type} (op : Except JsValue α) : List JsValue × Except JsThrown α :=
  match op with
  | .ok a => ([], .ok a)
  | .error e => ([], .error (.raw e))

/-! ## The `query-string` library model (external collaborator of
`formUrlQuery` / `removeKeysFromQuery` in `src/lib/utils.ts`).

The library is embedded at the level of lists of characters.  `stringify`
percent-escapes (as `encodeURIComponent` does) the characters that are
meaningful to the query syntax — these are the escapes that matter for the
parse/stringify round trip; other characters are carried through verbatim.
`parse` splits on `&`, splits each component at the first `=`, decodes
percent escapes and `+`, and accumulates repeated keys into arrays, null
standing for a component without `=`.  `stringify` is always used with
`skipNull: true` in the repository, so null values are skipped. -/

namespace QS

/-- Upper-case hexadecimal digit for `n < 16`. -/
def toHexDigit (n : Nat) : Char :=
  if n < 10 then Char.ofNat (48 + n) else Char.ofNat (55 + n)

/-- Numeric value of a hexadecimal digit character. -/
def hexVal (c : Char) : Option Nat :=
  if 48 ≤ c.toNat ∧ c.toNat ≤ 57 then some (c.toNat - 48)
  else if 65 ≤ c.toNat ∧ c.toNat ≤ 70 then some (c.toNat - 55)
  else if 97 ≤ c.toNat ∧ c.toNat ≤ 102 then some (c.toNat - 87)
  else none

/-- The characters the encoder percent-escapes: the query-string
delimiters `& = ? #`, the escape character `%` itself, and the two space
encodings `+` and `' '`. -/
def escaped (c : Char) : Bool :=
  c = '&' || c = '=' || c = '%' || c = '+' || c = '#' || c = '?' || c = ' '

/-- Encoding of a single character. -/
def encodeChar (c : Char) : List Char :=
  if escaped c then ['%', toHexDigit (c.toNat / 16), toHexDigit (c.toNat % 16)] else [c]

/-- `encodeURIComponent`-style encoding of a component. -/
def encodeC (l : List Char) : List Char :=
  (l.map encodeChar).flatten

/-- `decodeURIComponent`-style decoding: `%HH` escapes are decoded, `+`
becomes a space, malformed escapes are kept verbatim (as the library's
fallback decoder does). -/
def decodeC : List Char → List Char
  | [] => []
  | c :: h1 :: h2 :: rest =>
    if c = '%' then
      match hexVal h1, hexVal h2 with
      | some a, some b => Char.ofNat (16 * a + b) :: decodeC rest
      | _, _ => c :: decodeC (h1 :: h2 :: rest)
    else if c = '+' then ' ' :: decodeC (h1 :: h2 :: rest)
    else c :: decodeC (h1 :: h2 :: rest)
  | c :: rest =>
    if c = '+' then ' ' :: decodeC rest else c :: decodeC rest

/-- A parsed query object: keys in insertion order, each with its list of
accumulated values; `none` is the null value of a key without `=`. -/
abbrev QMap := List (List Char × List (Option (List Char)))

/-- The keys of a parsed query object. -/
def keys (m : QMap) : List (List Char) := m.map (·.1)

/-- Whether the object already has the key. -/
def hasKey (m : QMap) (k : List Char) : Bool := m.any (fun p => decide (p.1 = k))

/-- Accumulation of one parsed component into the object: a repeated key
collects its values into an array, a new key is appended. -/
def addEntry (m : QMap) (k : List Char) (v : Option (List Char)) : QMap :=
  if hasKey m k then m.map (fun p => if p.1 = k then (k, p.2 ++ [v]) else p)
  else m ++ [(k, [v])]

/-- The JavaScript assignment `currentUrl[key] = value`: an existing key is
overwritten in place, a new key is appended. -/
def setKey (m : QMap) (k : List Char) (v : Option (List Char)) : QMap :=
  if hasKey m k then m.map (fun p => if p.1 = k then (k, [v]) else p)
  else m ++ [(k, [v])]

/-- The loop `keysToRemove.forEach(key => delete currentUrl[key])`. -/
def delKeys (m : QMap) (ks : List (List Char)) : QMap :=
  m.filter (fun p => decide (p.1 ∉ ks))

/-- Split a component at its first `=`; `none` when there is none. -/
def splitFirstEq : List Char → List Char × Option (List Char)
  | [] => ([], none)
  | c :: rest =>
    if c = '=' then ([], some rest)
    else
      let r := splitFirstEq rest
      (c :: r.1, r.2)

/-- JavaScript `split('&')`. -/
def splitAmp : List Char → List (List Char)
  | [] => [[]]
  | c :: rest =>
    if c = '&' then [] :: splitAmp rest
    else
      match splitAmp rest with
      | [] => [[c]]
      | g :: gs => (c :: g) :: gs

/-- Join with `&` separators. -/
def joinAmp : List (List Char) → List Char
  | [] => []
  | [x] => x
  | x :: xs => x ++ '&' :: joinAmp xs

/-- Decode one split component into a key/value pair. -/
def parseComp (comp : List Char) : List Char × Option (List Char) :=
  let r := splitFirstEq comp
  (decodeC r.1, r.2.map decodeC)

/-- The library strips a single leading `?`, `#` or `&` before parsing. -/
def stripLead : List Char → List Char
  | [] => []
  | c :: rest => if c = '?' || c = '#' || c = '&' then rest else c :: rest

/-- One step of the parse fold; empty components are skipped. -/
def parseStep (acc : QMap) (comp : List Char) : QMap :=
  if comp = [] then acc
  else
    let r := parseComp comp
    addEntry acc r.1 r.2

/-- Embedding of `qs.parse`. -/
def parseQ (l : List Char) : QMap :=
  (splitAmp (stripLead l)).foldl parseStep []

/-- The serialized form of one key/value item. -/
def itemChars (k : List Char) (v : List Char) : List Char :=
  encodeC k ++ '=' :: encodeC v

/-- The items an entry contributes to the output; null values are skipped
(`skipNull: true`). -/
def entryItems (p : List Char × List (Option (List Char))) : List (List Char) :=
  (p.2.filterMap id).map (itemChars p.1)

/-- All serialized items of an object, in order. -/
def allItems (m : QMap) : List (List Char) := (m.map entryItems).flatten

/-- Embedding of `qs.stringify` with `skipNull: true`. -/
def stringifyQC (m : QMap) : List Char := joinAmp (allItems m)

/-- Embedding of `qs.stringifyUrl` for a query-free `url` (in the
repository the url is always `window.location.pathname`): the query string
is appended after a `?` unless it is empty. -/
def stringifyUrlC (path : List Char) (m : QMap) : List Char :=
  let q := stringifyQC m
  if q = [] then path else path ++ '?' :: q

/-- Everything after the first `?` of a URL (empty when there is none). -/
def queryOfC : List Char → List Char
  | [] => []
  | c :: rest => if c = '?' then rest else queryOfC rest

/-- Normal form of an object after a stringify/parse round trip: null
values disappear and keys left without any value disappear with them. -/
def dropNulls (m : QMap) : QMap :=
  (m.map (fun p => (p.1, (p.2.filterMap id).map some))).filter (fun p => !p.2.isEmpty)

/-- Value list of a key of a parsed object (first entry with that key). -/
def lookupKey (m : QMap) (k : List Char) : Option (List (Option (List Char))) :=
  (m.find? (fun p => decide (p.1 = k))).map (·.2)

end QS

/-- Argument record of `formUrlQuery` (`@/types` `UrlQueryParams`). -/
structure UrlQueryParams where
  params : String
  key : String
  value : String

/-- Argument record of `removeKeysFromQuery` (`@/types` `RemoveUrlQueryParams`). -/
structure RemoveUrlQueryParams where
  params : String
  keysToRemove : List String

/-- Embedding of `formUrlQuery` from `src/lib/utils.ts`: parse the current
query, assign the key, and stringify against `window.location.pathname`
(passed explicitly as `pathname`) with `skipNull: true`. -/
def formUrlQuery (pathname : String) (a : UrlQueryParams) : String :=
  String.mk (QS.stringifyUrlC pathname.toList
    (QS.setKey (QS.parseQ a.params.toList) a.key.toList (some a.value.toList)))

/-- Embedding of `removeKeysFromQuery` from `src/lib/utils.ts`. -/
def removeKeysFromQuery (pathname : String) (a : RemoveUrlQueryParams) : String :=
  String.mk (QS.stringifyUrlC pathname.toList
    (QS.delKeys (QS.parseQ a.params.toList) (a.keysToRemove.map String.toList)))

/-- The query portion of a URL. -/
def queryOf (url : String) : String := String.mk (QS.queryOfC url.toList)

/-! ## The Pagination component (`src/unnamed/part_000`) -/

/-- JavaScript `a || b` on an optional string: `undefined` and the empty
string are falsy. -/
def jsOrStr (a : Option String) (b : String) : String :=
  match a with
  | some s => if s = "" then b else s
  | none => b

/-- Truthiness of an optional string (`undefined` and `''` are falsy). -/
def jsTruthyStr (a : Option String) : Bool :=
  match a with
  | some s => decide (s ≠ "")
  | none => false

/-- Props of the `Pagination` component; `page` is carried as the number
`Number(page)` evaluates to. -/
structure PaginationProps where
  page : Int
  totalPages : Int
  urlParamName : Option String

/-- The `disabled` predicate of the Previous button: `Number(page) <= 1`. -/
def paginationPrevDisabled (props : PaginationProps) : Bool :=
  decide (props.page ≤ 1)

/-- The `disabled` predicate of the Next button: `Number(page) >= totalPages`. -/
def paginationNextDisabled (props : PaginationProps) : Bool :=
  decide (props.page ≥ props.totalPages)

/-- The component's `onClick` handler: it computes the target page from the
button type and navigates to the URL produced by `formUrlQuery` with key
`urlParamName || 'page'`; the returned string is the URL pushed to the
router. -/
def paginationOnClick (pathname searchParams : String) (props : PaginationProps)
    (btnType : String) : String :=
  let pageValue : Int := if btnType = "next" then props.page + 1 else props.page - 1
  formUrlQuery pathname
    { params := searchParams, key := jsOrStr props.urlParamName "page",
      value := toString pageValue }

/-! ## The document-store model shared by the server actions.

Document ids (Mongo `ObjectId`s) are modelled as strings; `toHexString` and
`new ObjectId(hex)` are then the identity.  The external regular-expression
engine behind `$regex`/`$options: 'i'` and `RegExp(s, 'i')` is passed in as
an abstract matcher `imatch pattern subject`. -/

/-- An `Event` document (`@/lib/database/models/event.model`), restricted to
the fields the verified actions read or write. -/
structure EventDoc where
  _id : String
  title : String
  organizer : String
  category : String
  createdAt : Int
deriving Repr, DecidableEq

/-- A `Category` document. -/
structure CategoryDoc where
  _id : String
  name : String
deriving Repr, DecidableEq

/-- A `User` document, restricted to the fields the verified actions use. -/
structure UserDoc where
  _id : String
  clerkId : String
  firstName : String
  lastName : String
deriving Repr, DecidableEq

/-- An `Order` document; `buyer` is optional because `deleteUser` can
`$unset` it. -/
structure OrderDoc where
  _id : String
  event : String
  buyer : Option String
  totalAmount : String
  createdAt : Int
deriving Repr, DecidableEq

/-- The state of the document store. -/
structure DB where
  events : List EventDoc
  categories : List CategoryDoc
  users : List UserDoc
  orders : List OrderDoc
deriving Repr, DecidableEq

/-- Embedding of the pagination arithmetic `Math.ceil(count / limit)` on
natural inputs (exact for the integer ranges the store can return); the
`limit = 0` guard is outside the modelled domain, which the claims restrict
to positive limits. -/
def jsMathCeilDiv (count limit : Nat) : Nat :=
  if limit = 0 then 0 else (count + limit - 1) / limit

/-- Stable insertion of an element into a list sorted descending by `key`. -/
def insertByKeyDesc {α : Type} (key : α → Int) (a : α) : List α → List α
  | [] => [a]
  | x :: xs => if key x ≥ key a then x :: insertByKeyDesc key a xs else a :: x :: xs

/-- The store's `sort({ createdAt: 'desc' })`. -/
def sortByKeyDesc {α : Type} (key : α → Int) (l : List α) : List α :=
  l.foldr (insertByKeyDesc key) []

/-- `skip(skipAmount)` followed by `limit(limit)` on the sorted results. -/
def paginate {α : Type} (l : List α) (skipAmount : Int) (limit : Nat) : List α :=
  (l.drop skipAmount.toNat).take limit

/-- A populated event as produced by `populateEvent`: the `organizer` and
`category` references are replaced by the selected projections of the
referenced documents. -/
structure PopulatedEvent where
  _id : String
  title : String
  createdAt : Int
  organizer : Option (String × String × String)
  category : Option (String × String)
deriving Repr, DecidableEq

/-- Embedding of `populateEvent` (the two `populate` joins of the events
query): resolve `organizer` against `User` selecting
`_id firstName lastName`, and `category` against `Category` selecting
`_id name`. -/
def populateEvent (db : DB) (e : EventDoc) : PopulatedEvent :=
  { _id := e._id, title := e.title, createdAt := e.createdAt,
    organizer := (db.users.find? (fun u => decide (u._id = e.organizer))).map
      (fun u => (u._id, u.firstName, u.lastName)),
    category := (db.categories.find? (fun c => decide (c._id = e.category))).map
      (fun c => (c._id, c.name)) }

/-- Embedding of `getCategoryByName`:
`Category.findOne({ name: { $regex: name, $options: 'i' } })` with the
regular-expression engine abstracted as `imatch`. -/
def getCategoryByName (db : DB) (imatch : String → String → Bool) (name : String) :
    Option CategoryDoc :=
  db.categories.find? (fun c => imatch name c.name)

/-- Parameters of `getAllEvents` (`@/types` `GetAllEventsParams`). -/
structure GetAllEventsParams where
  query : Option String
  limit : Nat
  page : Int
  category : Option String

/-- The paged result `{ data, totalPages }` of the events queries. -/
structure EventsPage where
  data : List PopulatedEvent
  totalPages : Nat
deriving Repr, DecidableEq

/-- The title part of the `getAllEvents` conditions:
`query ? { title: { $regex: query, $options: 'i' } } : {}`. -/
def titleCondition (imatch : String → String → Bool) (query : Option String)
    (e : EventDoc) : Bool :=
  if jsTruthyStr query then imatch (query.getD "") e.title else true

/-- The resolved category of `getAllEvents`:
`category ? await getCategoryByName(category) : null`. -/
def resolvedCategory (db : DB) (imatch : String → String → Bool)
    (category : Option String) : Option CategoryDoc :=
  if jsTruthyStr category then getCategoryByName db imatch (category.getD "") else none

/-- The `$and` conditions of `getAllEvents`: the title condition, and the
category condition `{ category: categoryCondition._id }` only when a
category document was resolved. -/
def eventConditions (db : DB) (imatch : String → String → Bool)
    (query category : Option String) (e : EventDoc) : Bool :=
  titleCondition imatch query e &&
    (match resolvedCategory db imatch category with
     | some c => decide (e.category = c._id)
     | none => true)

/-- Embedding of `getAllEvents` (`src/unnamed/part_001`, lines 215-241):
filter, sort by `createdAt` descending, skip `(Number(page) - 1) * limit`,
take `limit`, populate, and pair the data with
`Math.ceil(eventsCount / limit)`.  The second component is the trace of
document-store operations the call performs. -/
def getAllEvents (db : DB) (imatch : String → String → Bool) (p : GetAllEventsParams) :
    EventsPage × List String :=
  let conditions := eventConditions db imatch p.query p.category
  let skipAmount : Int := (p.page - 1) * (p.limit : Int)
  let matching := db.events.filter conditions
  let events := (paginate (sortByKeyDesc EventDoc.createdAt matching) skipAmount p.limit).map
    (populateEvent db)
  ({ data := events, totalPages := jsMathCeilDiv matching.length p.limit },
   (if jsTruthyStr p.category then ["Category.findOne"] else []) ++
     ["Event.find", "Event.countDocuments"])

/-- Embedding of the other `getAllEvents` present in the source
(`src/unnamed/part_001`, lines 79-100): empty `conditions` and a literal
`skip(0)`, with the same sort, limit, populate and totalPages arithmetic. -/
def getAllEventsV1 (db : DB) (p : GetAllEventsParams) : EventsPage × List String :=
  let events := (paginate (sortByKeyDesc EventDoc.createdAt db.events) 0 p.limit).map
    (populateEvent db)
  ({ data := events, totalPages := jsMathCeilDiv db.events.length p.limit },
   ["Event.find", "Event.countDocuments"])

/-- Parameters of `getEventsByUser`. -/
structure GetEventsByUserParams where
  userId : String
  limit : Nat
  page : Int

/-- Embedding of `getEventsByUser`: conditions `{ organizer: userId }`,
skip `(page - 1) * limit`. -/
def getEventsByUser (db : DB) (p : GetEventsByUserParams) : EventsPage × List String :=
  let conditions := fun (e : EventDoc) => decide (e.organizer = p.userId)
  let skipAmount : Int := (p.page - 1) * (p.limit : Int)
  let matching := db.events.filter conditions
  let events := (paginate (sortByKeyDesc EventDoc.createdAt matching) skipAmount p.limit).map
    (populateEvent db)
  ({ data := events, totalPages := jsMathCeilDiv matching.length p.limit },
   ["Event.find", "Event.countDocuments"])

/-- Parameters of `getRelatedEventsByCategory`. -/
structure GetRelatedEventsByCategoryParams where
  categoryId : String
  eventId : String
  limit : Nat
  page : Int

/-- Embedding of `getRelatedEventsByCategory`: conditions
`$and: [{ category: categoryId }, { _id: { $ne: eventId } }]`. -/
def getRelatedEventsByCategory (db : DB) (p : GetRelatedEventsByCategoryParams) :
    EventsPage × List String :=
  let conditions := fun (e : EventDoc) =>
    decide (e.category = p.categoryId) && decide (e._id ≠ p.eventId)
  let skipAmount : Int := (p.page - 1) * (p.limit : Int)
  let matching := db.events.filter conditions
  let events := (paginate (sortByKeyDesc EventDoc.createdAt matching) skipAmount p.limit).map
    (populateEvent db)
  ({ data := events, totalPages := jsMathCeilDiv matching.length p.limit },
   ["Event.find", "Event.countDocuments"])

/-- Parameters of `getOrdersByUser`. -/
structure GetOrdersByUserParams where
  userId : String
  limit : Nat
  page : Int

/-- An order populated with its event (which is itself populated with its
organizer), as `getOrdersByUser` returns it. -/
structure PopulatedOrder where
  _id : String
  totalAmount : String
  createdAt : Int
  event : Option PopulatedEvent
deriving Repr, DecidableEq

/-- The nested populate of `getOrdersByUser`. -/
def populateOrder (db : DB) (o : OrderDoc) : PopulatedOrder :=
  { _id := o._id, totalAmount := o.totalAmount, createdAt := o.createdAt,
    event := (db.events.find? (fun e => decide (e._id = o.event))).map (populateEvent db) }

/-- The paged result of `getOrdersByUser`. -/
structure OrdersPage where
  data : List PopulatedOrder
  totalPages : Nat
deriving Repr, DecidableEq

/-- Embedding of `getOrdersByUser`: conditions `{ buyer: userId }`, skip
`(Number(page) - 1) * limit`, sort by `createdAt` descending, populate the
event.  (The source builds the query as `Order.distinct('event._id').find(conditions)`;
chaining `.find`/`.countDocuments` on the query replaces the distinct
operation, so the executed operations are the find and the count.) -/
def getOrdersByUser (db : DB) (p : GetOrdersByUserParams) : OrdersPage × List String :=
  let conditions := fun (o : OrderDoc) => decide (o.buyer = some p.userId)
  let skipAmount : Int := (p.page - 1) * (p.limit : Int)
  let matching := db.orders.filter conditions
  let orders := (paginate (sortByKeyDesc OrderDoc.createdAt matching) skipAmount p.limit).map
    (populateOrder db)
  ({ data := orders, totalPages := jsMathCeilDiv matching.length p.limit },
   ["Order.find", "Order.countDocuments"])

/-- The update payload of `updateEvent` (`event` field of
`UpdateEventParams`), restricted to the modelled event fields. -/
structure UpdateEventPayload where
  _id : String
  title : String
  categoryId : String

/-- Parameters of `updateEvent`. -/
structure UpdateEventParams where
  userId : String
  event : UpdateEventPayload
  path : String

/-- In-place update of the first document matching `p`, as
`findByIdAndUpdate` updates a single document. -/
def mapFirst {α : Type} (p : α → Bool) (f : α → α) : List α → List α
  | [] => []
  | x :: xs => if p x then f x :: xs else x :: mapFirst p f xs

/-- The document update `{ ...event, category: event.categoryId }` applied
to an event document. -/
def applyEventUpdate (u : UpdateEventPayload) (e : EventDoc) : EventDoc :=
  { e with title := u.title, category := u.categoryId }

/-- Embedding of `updateEvent` (`src/unnamed/part_001`, lines 265-285):
load the event by `event._id`; throw `'Unauthorized or event not found'`
unless it exists and its `organizer` (as a hex string) equals `userId`;
otherwise apply `findByIdAndUpdate` with `{ new: true }` and return the
updated document.  The first component is the resulting store state. -/
def updateEvent (db : DB) (p : UpdateEventParams) : DB × Except String EventDoc :=
  match db.events.find? (fun e => decide (e._id = p.event._id)) with
  | none => (db, .error "Unauthorized or event not found")
  | some eventToUpdate =>
    if eventToUpdate.organizer ≠ p.userId then
      (db, .error "Unauthorized or event not found")
    else
      let events := mapFirst (fun e => decide (e._id = p.event._id))
        (applyEventUpdate p.event) db.events
      ({ db with events := events }, .ok (applyEventUpdate p.event eventToUpdate))

/-- Parameters of `getOrdersByEvent`; a missing or empty `eventId` is the
falsy case of `if (!eventId)`. -/
structure GetOrdersByEventParams where
  searchString : String
  eventId : Option String

/-- A row produced by the `$project` stage of the `getOrdersByEvent`
aggregation. -/
structure OrderRow where
  _id : String
  totalAmount : String
  createdAt : Int
  eventTitle : String
  eventId : String
  buyer : String
deriving Repr, DecidableEq

/-- The `$project` stage applied to an order joined with its (unwound)
buyer and event. -/
def projectOrderRow (o : OrderDoc) (u : UserDoc) (e : EventDoc) : OrderRow :=
  { _id := o._id, totalAmount := o.totalAmount, createdAt := o.createdAt,
    eventTitle := e.title, eventId := e._id,
    buyer := u.firstName ++ " " ++ u.lastName }

/-- Embedding of the `getOrdersByEvent` aggregation pipeline
(`src/unnamed/part_001`, lines 433-486): `$lookup` of the buyer from
`users` followed by `$unwind`, `$lookup` of the event from `events`
followed by `$unwind`, the `$project` above, and a final `$match` on
`eventId` and on the buyer name against `RegExp(searchString, 'i')`
(abstracted as `imatch`). -/
def getOrdersByEvent (db : DB) (imatch : String → String → Bool)
    (p : GetOrdersByEventParams) : Except String (List OrderRow) :=
  if !jsTruthyStr p.eventId then .error "Event ID is required"
  else
    let eventObjectId := p.eventId.getD ""
    let rows :=
      (db.orders.map (fun o =>
        ((db.users.filter (fun u => decide (o.buyer = some u._id))).map (fun u =>
          (db.events.filter (fun e => decide (e._id = o.event))).map (fun e =>
            projectOrderRow o u e))).flatten)).flatten
    .ok (rows.filter (fun r =>
      decide (r.eventId = eventObjectId) && imatch p.searchString r.buyer))

/-- The result set `getOrdersByEvent` is specified to return: exactly the
orders whose `event` is the given id and whose buyer's full name
(`firstName ++ " " ++ lastName`) matches the search string, projected by
`projectOrderRow`.  Stated from the spec sentence, for comparison with the
pipeline embedding above. -/
def ordersByEventSpec (db : DB) (imatch : String → String → Bool)
    (eventId searchString : String) : List OrderRow :=
  db.orders.filterMap (fun o =>
    match db.users.find? (fun u => decide (o.buyer = some u._id)),
          db.events.find? (fun e => decide (e._id = o.event)) with
    | some u, some e =>
      if o.event = eventId ∧ imatch searchString (u.firstName ++ " " ++ u.lastName) then
        some (projectOrderRow o u e)
      else none
    | _, _ => none)

/-! ## `deleteUser` with its cascade cleanup (`src/lib/actions/user.actions.ts`).

This action is modelled in its own namespace.  The schema gives an event a
single `organizer` ObjectId (`createEvent` stores `organizer: userId` and
`updateEvent` reads `organizer.toHexString()`), while the `$pull` update
`deleteUser` issues is a Mongo array operation: applied to a matched
document whose field is not an array it is a write error, so the update
succeeds only when its `_id` filter matches no event document. -/

namespace UserCascade

/-- An event as `deleteUser` sees it: `_id` plus the scalar `organizer`
back-reference the `$pull` update targets. -/
structure EventDoc where
  _id : String
  organizer : String
deriving Repr, DecidableEq

/-- An order as `deleteUser` sees it: `_id` plus the `buyer` field targeted
by `$unset`. -/
structure OrderDoc where
  _id : String
  buyer : Option String
deriving Repr, DecidableEq

/-- A user with its `events` and `orders` back-reference arrays. -/
structure UserDoc where
  _id : String
  clerkId : String
  events : List String
  orders : List String
deriving Repr, DecidableEq

/-- The store state `deleteUser` operates on. -/
structure DB where
  users : List UserDoc
  events : List EventDoc
  orders : List OrderDoc
deriving Repr, DecidableEq

/-- Result of `deleteUser`: the new store state, the outcome, and the trace
of document-store operations performed. -/
structure DeleteUserResult where
  db : DB
  result : Except String (Option UserDoc)
  ops : List String

/-- The update
`Event.updateMany({ _id: { $in: events } }, { $pull: { organizer: uid } })`.
`$pull` expects an array field; `organizer` is a single ObjectId in this
schema, so the write errors as soon as the filter matches an event document
and modifies nothing; it succeeds (as a no-op) only when no event
matches. -/
def pullOrganizerUpdate (events : List EventDoc) (ids : List String) (uid : String) :
    Except String (List EventDoc) :=
  if events.any (fun e => ids.contains e._id) then
    .error "Cannot apply $pull to a non-array value"
  else
    .ok events

/-- The update
`Order.updateMany({ _id: { $in: orders } }, { $unset: { buyer: 1 } })`. -/
def unsetBuyerUpdate (orders : List OrderDoc) (ids : List String) : List OrderDoc :=
  orders.map (fun o => if ids.contains o._id then { o with buyer := none } else o)

/-- The body of `deleteUser` once the user has been found: `Promise.all`
dispatches the two back-reference updates — the orders `$unset` goes
through in either case, while the events `$pull` rejects whenever it
matches an event document, and then the whole `Promise.all` rejects and
the thrown error propagates with the user document still in place.  Only
when the `$pull` matched nothing does the function reach
`findByIdAndDelete` and return the deleted document (or null). -/
def deleteUserFound (db : DB) (userToDelete : UserDoc) : DeleteUserResult :=
  match pullOrganizerUpdate db.events userToDelete.events userToDelete._id with
  | .error msg =>
    { db := { users := db.users, events := db.events,
              orders := unsetBuyerUpdate db.orders userToDelete.orders },
      result := .error msg,
      ops := ["User.findOne", "Event.updateMany", "Order.updateMany"] }
  | .ok events =>
    { db := { users := db.users.eraseP (fun u => decide (u._id = userToDelete._id)),
              events := events,
              orders := unsetBuyerUpdate db.orders userToDelete.orders },
      result := .ok (db.users.find? (fun u => decide (u._id = userToDelete._id))),
      ops := ["User.findOne", "Event.updateMany", "Order.updateMany",
              "User.findByIdAndDelete"] }

/-- Embedding of `deleteUser`: find the user by `clerkId` (throwing
`'User not found'` when absent), then run the back-reference updates and
the deletion as in `deleteUserFound`. -/
def deleteUser (db : DB) (clerkId : String) : DeleteUserResult :=
  match db.users.find? (fun u => decide (u.clerkId = clerkId)) with
  | none => { db := db, result := .error "User not found", ops := ["User.findOne"] }
  | some userToDelete => deleteUserFound db userToDelete

end UserCascade

/-- A concrete case-insensitive substring matcher, used to instantiate the
abstract regular-expression engine on plain-text patterns in witnesses and
counterexamples. -/
def charLower (c : Char) : Char :=
  if 65 ≤ c.toNat ∧ c.toNat ≤ 90 then Char.ofNat (c.toNat + 32) else c

/-- Whether the first list is an initial segment of the second. -/
def leadsWith : List Char → List Char → Bool
  | [], _ => true
  | _ :: _, [] => false
  | a :: as, b :: bs => a = b && leadsWith as bs

/-- Whether `needle` occurs inside `hay`. -/
def containsSubList (needle : List Char) : List Char → Bool
  | [] => leadsWith needle []
  | c :: t => leadsWith needle (c :: t) || containsSubList needle t

/-- Case-insensitive containment of `pat` in `s`. -/
def icontains (pat s : String) : Bool :=
  containsSubList (pat.toList.map charLower) (s.toList.map charLower)

/-! ## Concrete fixtures used by witnesses and counterexamples -/

/-- A sample category. -/
def catMusic : CategoryDoc := { _id := "c1", name := "Music" }

/-- A sample user. -/
def userAda : UserDoc :=
  { _id := "u1", clerkId := "ck1", firstName := "Ada", lastName := "Lovelace" }

/-- A sample event whose title contains "music". -/
def eventConcert : EventDoc :=
  { _id := "e1", title := "Jazz Music Night", organizer := "u1", category := "c1",
    createdAt := 2 }

/-- A sample event whose title does not contain "music". -/
def eventMeetup : EventDoc :=
  { _id := "e2", title := "Tech Meetup", organizer := "u1", category := "c2",
    createdAt := 1 }

/-- A sample order for `eventConcert` bought by `userAda`. -/
def orderOne : OrderDoc :=
  { _id := "o1", event := "e1", buyer := some "u1", totalAmount := "25", createdAt := 5 }

/-- A small sample store. -/
def dbW : DB :=
  { events := [eventConcert, eventMeetup], categories := [catMusic],
    users := [userAda], orders := [orderOne] }

/-- Query parameters that search titles for "music". -/
def pW : GetAllEventsParams :=
  { query := some "music", limit := 6, page := 1, category := none }

/-- Query parameters with no search query and no category, on page 1. -/
def pTriv : GetAllEventsParams :=
  { query := none, limit := 6, page := 1, category := none }

/-- A sample user whose `events` array names a stored event, so the
`$pull` update of `deleteUser` matches that event and errors. -/
def uDel : UserCascade.UserDoc :=
  { _id := "u1", clerkId := "ck1", events := ["e1"], orders := ["o1"] }

/-- A sample store on which the `deleteUser` cascade is reachable by the
`$pull` write. -/
def dbU : UserCascade.DB :=
  { users := [uDel],
    events := [{ _id := "e1", organizer := "u1" }],
    orders := [{ _id := "o1", buyer := some "u1" }] }

/-- A sample user whose `events` array names no stored event, so the
`$pull` update matches nothing and `deleteUser` runs to completion. -/
def uDel2 : UserCascade.UserDoc :=
  { _id := "u2", clerkId := "ck2", events := [], orders := ["o1"] }

/-- A sample store on which `deleteUser` succeeds. -/
def dbU2 : UserCascade.DB :=
  { users := [uDel2],
    events := [{ _id := "e1", organizer := "u1" }],
    orders := [{ _id := "o1", buyer := some "u2" }] }

/-! ## Pagination arithmetic -/

/-- The store's `Math.ceil(count / limit)` computation agrees with the
mathematical ceiling of the exact division, for every positive limit. -/
theorem jsMathCeilDiv_eq_ceil (a b : Nat) (hb : 0 < b) :
    jsMathCeilDiv a b = ⌈(a : ℚ) / (b : ℚ)⌉₊ := by
  unfold jsMathCeilDiv
  rw [if_neg (Nat.pos_iff_ne_zero.mp hb)]
  have hbq : (0 : ℚ) < (b : ℚ) := by exact_mod_cast hb
  have h1 : b * ((a + b - 1) / b) + (a + b - 1) % b = a + b - 1 := Nat.div_add_mod _ _
  have h2 : (a + b - 1) % b < b := Nat.mod_lt _ hb
  have hcomm : ((a + b - 1) / b) * b = b * ((a + b - 1) / b) := Nat.mul_comm _ _
  apply le_antisymm
  · have h4 : (a : ℚ) ≤ (⌈(a : ℚ) / (b : ℚ)⌉₊ : ℚ) * b := by
      have h5 := Nat.le_ceil ((a : ℚ) / (b : ℚ))
      calc (a : ℚ) = (a : ℚ) / b * b := by field_simp
        _ ≤ (⌈(a : ℚ) / (b : ℚ)⌉₊ : ℚ) * b :=
          mul_le_mul_of_nonneg_right h5 (le_of_lt hbq)
    have h6 : a ≤ ⌈(a : ℚ) / (b : ℚ)⌉₊ * b := by exact_mod_cast h4
    have h8 : (⌈(a : ℚ) / (b : ℚ)⌉₊ + 1) * b = ⌈(a : ℚ) / (b : ℚ)⌉₊ * b + b := by ring
    have h7 : (a + b - 1) / b < ⌈(a : ℚ) / (b : ℚ)⌉₊ + 1 := by
      rw [Nat.div_lt_iff_lt_mul hb]
      omega
    omega
  · apply Nat.ceil_le.mpr
    rw [div_le_iff₀ hbq]
    have h3 : a ≤ ((a + b - 1) / b) * b := by omega
    exact_mod_cast h3

/-- C1.  For every paginated query function (`getAllEvents`,
`getEventsByUser`, `getRelatedEventsByCategory`, `getOrdersByUser`), every
store state (hence every count of matching documents) and every positive
limit, the `totalPages` field of the returned object equals the ceiling of
the matching-document count divided by the limit. -/
theorem paginated_totalPages_eq_ceil :
    (∀ db imatch p, 0 < p.limit →
      (getAllEvents db imatch p).1.totalPages =
        ⌈((db.events.filter (eventConditions db imatch p.query p.category)).length : ℚ) /
          (p.limit : ℚ)⌉₊) ∧
    (∀ db p, 0 < p.limit →
      (getEventsByUser db p).1.totalPages =
        ⌈((db.events.filter (fun e => decide (e.organizer = p.userId))).length : ℚ) /
          (p.limit : ℚ)⌉₊) ∧
    (∀ db p, 0 < p.limit →
      (getRelatedEventsByCategory db p).1.totalPages =
        ⌈((db.events.filter (fun e =>
            decide (e.category = p.categoryId) && decide (e._id ≠ p.eventId))).length : ℚ) /
          (p.limit : ℚ)⌉₊) ∧
    (∀ db p, 0 < p.limit →
      (getOrdersByUser db p).1.totalPages =
        ⌈((db.orders.filter (fun o => decide (o.buyer = some p.userId))).length : ℚ) /
          (p.limit : ℚ)⌉₊) := by
  refine ⟨?_, ?_, ?_, ?_⟩
  · intro db imatch p h
    exact jsMathCeilDiv_eq_ceil _ _ h
  · intro db p h
    exact jsMathCeilDiv_eq_ceil _ _ h
  · intro db p h
    exact jsMathCeilDiv_eq_ceil _ _ h
  · intro db p h
    exact jsMathCeilDiv_eq_ceil _ _ h

/-- Witness for C1 at a concrete store and positive limit. -/
theorem paginated_totalPages_eq_ceil_witness :
    0 < pW.limit ∧
    (getAllEvents dbW icontains pW).1.totalPages =
      ⌈((dbW.events.filter (eventConditions dbW icontains pW.query pW.category)).length : ℚ) /
        (pW.limit : ℚ)⌉₊ :=
  ⟨by decide, paginated_totalPages_eq_ceil.1 dbW icontains pW (by decide)⟩

/-! ## Error-handling policy -/

/-- C2.  On a thrown database error, a data-layer function logs the caught
value to the console and rethrows a new generic `Error` whose message is
the caught value when it is a string and its JSON serialization otherwise,
whereas `checkoutOrder` rethrows the original caught value unchanged and
logs nothing. -/
theorem error_policy :
    (∀ (e : JsValue), runDataLayer (Except.error e : Except JsValue Unit) =
        ([e], .error (.errorObj (handleErrorMessage e)))) ∧
    (∀ (s : String), handleErrorMessage (.str s) = s) ∧
    (∀ (e : JsValue), (∀ s, e ≠ .str s) → handleErrorMessage e = jsonStringify e) ∧
    (∀ (e : JsValue), checkoutOrderRun (Except.error e : Except JsValue Unit) =
        ([], .error (.raw e))) := by
  refine ⟨fun e => rfl, fun _ => rfl, ?_, fun e => rfl⟩
  intro e h
  cases e with
  | str s => exact absurd rfl (h s)
  | num i => rfl
  | bool b => rfl
  | null => rfl
  | arr l => rfl
  | obj l => rfl

/-- Witness for C2 at a concrete non-string caught value. -/
theorem error_policy_witness :
    (∀ s, JsValue.num 7 ≠ JsValue.str s) ∧
    handleErrorMessage (JsValue.num 7) = jsonStringify (JsValue.num 7) :=
  ⟨fun _ h => JsValue.noConfusion h,
   error_policy.2.2.1 (JsValue.num 7) (fun _ h => JsValue.noConfusion h)⟩

/-! ## `updateEvent` ownership scoping -/

/-- C3.  `updateEvent` throws and leaves the store untouched when no event
has the given `event._id` or when the stored organizer differs from
`userId`; the store is modified only when `userId` equals the owning
organizer's id. -/
theorem updateEvent_organizer_scoped :
    (∀ db p, (∀ e ∈ db.events, e._id ≠ p.event._id) →
      updateEvent db p = (db, .error "Unauthorized or event not found")) ∧
    (∀ db p e, db.events.find? (fun x => decide (x._id = p.event._id)) = some e →
      e.organizer ≠ p.userId →
      updateEvent db p = (db, .error "Unauthorized or event not found")) ∧
    (∀ db p, (updateEvent db p).1 ≠ db →
      ∃ e ∈ db.events, e._id = p.event._id ∧ e.organizer = p.userId) := by
  refine ⟨?_, ?_, ?_⟩
  · intro db p h
    have hf : db.events.find? (fun x => decide (x._id = p.event._id)) = none := by
      rw [List.find?_eq_none]
      intro x hx
      simp only [decide_eq_true_eq]
      exact h x hx
    unfold updateEvent
    rw [hf]
  · intro db p e hf ho
    unfold updateEvent
    rw [hf]
    simp [ho]
  · intro db p h
    by_cases hex : ∃ e, db.events.find? (fun x => decide (x._id = p.event._id)) = some e ∧
        e.organizer = p.userId
    · obtain ⟨e, hf, ho⟩ := hex
      refine ⟨e, List.mem_of_find?_eq_some hf, ?_, ho⟩
      have := List.find?_some hf
      simpa using this
    · exfalso
      apply h
      unfold updateEvent
      cases hf : db.events.find? (fun x => decide (x._id = p.event._id)) with
      | none => rfl
      | some e =>
        have ho : e.organizer ≠ p.userId := fun hh => hex ⟨e, hf, hh⟩
        simp [ho]

/-- Witness for C3: on a store without the requested event id the call
throws and the store is unchanged. -/
theorem updateEvent_organizer_scoped_witness :
    (∀ e ∈ dbW.events, e._id ≠ "missing") ∧
    updateEvent dbW { userId := "u1", event := { _id := "missing", title := "t", categoryId := "c1" }, path := "/" } =
      (dbW, .error "Unauthorized or event not found") :=
  ⟨by decide,
   updateEvent_organizer_scoped.1 dbW
     { userId := "u1", event := { _id := "missing", title := "t", categoryId := "c1" }, path := "/" }
     (by decide)⟩

/-! ## Collapsing unique-key joins -/

/-- Filtering by a predicate satisfied by at most one position of the list
is the same as taking the first hit. -/
theorem filter_eq_first_hit {α : Type} (p : α → Bool) :
    ∀ l : List α, l.Pairwise (fun a b => ¬(p a = true ∧ p b = true)) →
      l.filter p = (l.find? p).toList := by
  intro l
  induction l with
  | nil => intro _; rfl
  | cons a t ih =>
    intro h
    rw [List.pairwise_cons] at h
    by_cases ha : p a = true
    · rw [List.filter_cons_of_pos ha, List.find?_cons_of_pos _ ha]
      have ht : t.filter p = [] := by
        rw [List.filter_eq_nil_iff]
        intro b hb hpb
        exact h.1 b hb ⟨ha, hpb⟩
      rw [ht]
      rfl
    · rw [List.filter_cons_of_neg (by simpa using ha), List.find?_cons_of_neg _ ha]
      exact ih h.2

/-- A predicate that pins down the key is satisfied at most once on a list
whose keys are distinct. -/
theorem pairwise_of_nodup_keys {α β : Type} [DecidableEq β] (key : α → β) (p : α → Bool)
    (hp : ∀ a b, p a = true → p b = true → key a = key b) :
    ∀ l : List α, (l.map key).Nodup →
      l.Pairwise (fun a b => ¬(p a = true ∧ p b = true)) := by
  intro l h
  have h2 : l.Pairwise (fun a b => key a ≠ key b) := List.pairwise_map.mp h
  exact h2.imp (fun hab hpab => hab (hp _ _ hpab.1 hpab.2))

/-- `filter` distributes into a flattened list of lists. -/
theorem filter_flatten_eq {α : Type} (p : α → Bool) :
    ∀ L : List (List α), L.flatten.filter p = (L.map (fun l => l.filter p)).flatten := by
  intro L
  induction L with
  | nil => rfl
  | cons x xs ih => simp [List.filter_append, ih]

/-! ## The `getOrdersByEvent` aggregation pipeline -/

/-- C5.  With distinct user ids and distinct event ids in the store,
`getOrdersByEvent` on a non-empty `eventId` returns exactly the orders
whose `event` is that id and whose buyer's full name (first name, space,
last name) the case-insensitive matcher accepts, projected to
`_id`, `totalAmount`, `createdAt`, `eventTitle`, `eventId` and the buyer
full name; on an absent (or empty, hence falsy) `eventId` it throws
`'Event ID is required'`. -/
theorem ordersByEvent_pipeline_correct :
    (∀ db imatch ss s, s ≠ "" →
      (db.users.map (fun u => u._id)).Nodup →
      (db.events.map (fun e => e._id)).Nodup →
      getOrdersByEvent db imatch { searchString := ss, eventId := some s } =
        .ok (ordersByEventSpec db imatch s ss)) ∧
    (∀ db imatch ss,
      getOrdersByEvent db imatch { searchString := ss, eventId := none } =
        .error "Event ID is required" ∧
      getOrdersByEvent db imatch { searchString := ss, eventId := some "" } =
        .error "Event ID is required") := by
  constructor
  · intro db imatch ss s hs hU hE
    have hts : jsTruthyStr (some s) = true := by simp [jsTruthyStr, hs]
    unfold getOrdersByEvent
    rw [hts]
    simp only [Bool.not_true, Bool.false_eq_true, if_false, Option.getD_some]
    congr 1
    unfold ordersByEventSpec
    obtain ⟨evs, cats, us, ords⟩ := db
    simp only at hU hE ⊢
    induction ords with
    | nil => rfl
    | cons o t ih =>
      rw [List.map_cons, List.flatten_cons, List.filter_append, List.filterMap_cons, ih]
      have hu : us.filter (fun u => decide (o.buyer = some u._id)) =
          (us.find? (fun u => decide (o.buyer = some u._id))).toList := by
        apply filter_eq_first_hit
        apply pairwise_of_nodup_keys (fun u : UserDoc => u._id) _ _ us hU
        intro a b haa hbb
        simp only [decide_eq_true_eq] at haa hbb
        show a._id = b._id
        rw [haa] at hbb
        exact Option.some.inj hbb
      have he : evs.filter (fun e => decide (e._id = o.event)) =
          (evs.find? (fun e => decide (e._id = o.event))).toList := by
        apply filter_eq_first_hit
        apply pairwise_of_nodup_keys (fun e : EventDoc => e._id) _ _ evs hE
        intro a b haa hbb
        simp only [decide_eq_true_eq] at haa hbb
        show a._id = b._id
        rw [haa, hbb]
      rw [hu, he]
      cases hfu : us.find? (fun u => decide (o.buyer = some u._id)) with
      | none => rfl
      | some u =>
        cases hfe : evs.find? (fun e => decide (e._id = o.event)) with
        | none => rfl
        | some e =>
          have heid : e._id = o.event := by simpa using List.find?_some hfe
          simp only [Option.toList_some, List.map_cons, List.map_nil, List.flatten_cons,
            List.flatten_nil, List.append_nil, List.filter_cons, List.filter_nil]
          by_cases hev : o.event = s
          · by_cases hm : imatch ss (u.firstName ++ " " ++ u.lastName) = true
            · have : (decide ((projectOrderRow o u e).eventId = s) &&
                  imatch ss (projectOrderRow o u e).buyer) = true := by
                simp [projectOrderRow, heid, hev, hm]
              rw [if_pos this, if_pos ⟨hev, hm⟩]
              rfl
            · have : (decide ((projectOrderRow o u e).eventId = s) &&
                  imatch ss (projectOrderRow o u e).buyer) = false := by
                simp [projectOrderRow, hm]
              rw [if_neg (by simp [this]), if_neg (fun hc => hm hc.2)]
              rfl
          · have : (decide ((projectOrderRow o u e).eventId = s) &&
                imatch ss (projectOrderRow o u e).buyer) = false := by
              simp [projectOrderRow, heid, hev]
            rw [if_neg (by simp [this]), if_neg (fun hc => hev hc.1)]
            rfl
  · intro db imatch ss
    constructor
    · rfl
    · rfl

/-- Witness for C5 at a concrete store: the pipeline returns the single
matching order row. -/
theorem ordersByEvent_pipeline_correct_witness :
    ("e1" ≠ "") ∧
    (dbW.users.map (fun u => u._id)).Nodup ∧
    (dbW.events.map (fun e => e._id)).Nodup ∧
    getOrdersByEvent dbW icontains { searchString := "ada", eventId := some "e1" } =
      .ok (ordersByEventSpec dbW icontains "e1" "ada") :=
  ⟨by decide, by decide, by decide,
   ordersByEvent_pipeline_correct.1 dbW icontains "ada" "e1" (by decide) (by decide) (by decide)⟩

/-! ## `deleteUser` cascade cleanup -/

/-- C6 (code bug).  Evaluating `deleteUser` at a store whose user owns a
stored event: the `$pull` update targets the scalar `organizer` field, so
the `Event.updateMany` write errors, `deleteUser` rethrows with the user
document still present and the events untouched, and only the orders
`$unset` has gone through; the cascade the claim (and the function's own
comments) describe never runs.  The not-found branch of the claim does
hold: an unknown `clerkId` throws with no document modified. -/
theorem deleteUser_cascade_fails_on_pull :
    (UserCascade.deleteUser dbU "ck1").result =
      .error "Cannot apply $pull to a non-array value" ∧
    (UserCascade.deleteUser dbU "ck1").db.users = dbU.users ∧
    (UserCascade.deleteUser dbU "ck1").db.events = dbU.events ∧
    (UserCascade.deleteUser dbU "ck1").db.orders = [{ _id := "o1", buyer := none }] ∧
    UserCascade.deleteUser dbU "missing" =
      { db := dbU, result := .error "User not found", ops := ["User.findOne"] } :=
  ⟨rfl, rfl, rfl, rfl, rfl⟩

/-! ## The two `getAllEvents` versions -/

/-- Counterexample for C7: at a concrete store and a title query the two
versions of `getAllEvents` in the source return different results. -/
theorem getAllEvents_versions_differ :
    (getAllEventsV1 dbW pW).1 ≠ (getAllEvents dbW icontains pW).1 := by
  decide

/-- C7 (amended).  The two versions agree whenever no title query and no
category are supplied and the requested page is 1 (so that the filtering
conditions are empty and the skip amount is 0). -/
theorem getAllEvents_versions_agree_on_trivial_params :
    ∀ db imatch p, jsTruthyStr p.query = false → jsTruthyStr p.category = false →
      p.page = 1 → (getAllEventsV1 db p).1 = (getAllEvents db imatch p).1 := by
  intro db imatch p hq hc hp
  have hfilter : db.events.filter (eventConditions db imatch p.query p.category) = db.events := by
    rw [List.filter_eq_self]
    intro e he
    simp [eventConditions, titleCondition, resolvedCategory, hq, hc]
  simp [getAllEvents, getAllEventsV1, hfilter, hp]

/-- Witness for C7 (amended) at a concrete store. -/
theorem getAllEvents_versions_agree_on_trivial_params_witness :
    jsTruthyStr pTriv.query = false ∧ jsTruthyStr pTriv.category = false ∧
    pTriv.page = 1 ∧ (getAllEventsV1 dbW pTriv).1 = (getAllEvents dbW icontains pTriv).1 :=
  ⟨by decide, by decide, by decide,
   getAllEvents_versions_agree_on_trivial_params dbW icontains pTriv (by decide) (by decide)
     (by decide)⟩

/-! ## Number of document-store operations per call -/

/-- Counterexample for C8: at a concrete store a successful `getAllEvents`
performs two document-store queries (a find and a count), not exactly
one. -/
theorem single_query_per_call_false :
    (getAllEvents dbW icontains pW).2 = ["Event.find", "Event.countDocuments"] ∧
    (getAllEvents dbW icontains pW).2.length ≠ 1 := by
  constructor
  · rfl
  · decide

/-- C8 (amended).  `getAllEvents` performs two document-store queries (the
events find and the count), plus a category `findOne` when a category is
supplied; a successful `deleteUser` performs four operations (the user
`findOne`, the two `updateMany` writes, and the `findByIdAndDelete`);
each then serializes its result. -/
theorem data_access_operation_counts :
    (∀ db imatch p, (getAllEvents db imatch p).2.length =
        if jsTruthyStr p.category then 3 else 2) ∧
    (∀ db cid u, (UserCascade.deleteUser db cid).result = .ok u →
      (UserCascade.deleteUser db cid).ops.length = 4) := by
  constructor
  · intro db imatch p
    by_cases hc : jsTruthyStr p.category
    · simp [getAllEvents, hc]
    · simp [getAllEvents, hc]
  · intro db cid u h
    unfold UserCascade.deleteUser at h ⊢
    cases hf : db.users.find? (fun x => decide (x.clerkId = cid)) with
    | none => rw [hf] at h; cases h
    | some v =>
      rw [hf] at h
      have h3 : (UserCascade.deleteUserFound db v).result = Except.ok u := h
      show (UserCascade.deleteUserFound db v).ops.length = 4
      unfold UserCascade.deleteUserFound at h3 ⊢
      cases hp : UserCascade.pullOrganizerUpdate db.events v.events v._id with
      | error msg => rw [hp] at h3; cases h3
      | ok evs => rfl

/-- Witness for C8 (amended): a successful concrete `deleteUser` performs
four document-store operations. -/
theorem data_access_operation_counts_witness :
    (UserCascade.deleteUser dbU2 "ck2").result = .ok (some uDel2) ∧
    (UserCascade.deleteUser dbU2 "ck2").ops.length = 4 :=
  ⟨rfl, data_access_operation_counts.2 dbU2 "ck2" (some uDel2) rfl⟩

/-! ## Category resolution in `getAllEvents` -/

/-- C9.  When a category name is supplied and a stored category resolves,
the resolution is the `findOne` by the (case-insensitive) regex matcher
against stored category names — the resolved document is a stored category
the matcher accepts — and the query conditions then accept exactly the
events whose `category` field equals the resolved category's `_id` (beside
the title condition). -/
theorem category_resolution_scoping :
    ∀ db imatch q name c, name ≠ "" →
      getCategoryByName db imatch name = some c →
      imatch name c.name = true ∧ c ∈ db.categories ∧
      (∀ e, eventConditions db imatch q (some name) e =
        (titleCondition imatch q e && decide (e.category = c._id))) := by
  intro db imatch q name c hname hc
  have hc' : db.categories.find? (fun cc => imatch name cc.name) = some c := hc
  have hmatch : imatch name c.name = true := by simpa using List.find?_some hc'
  refine ⟨hmatch, List.mem_of_find?_eq_some hc', ?_⟩
  intro e
  have hres : resolvedCategory db imatch (some name) = some c := by
    simp [resolvedCategory, jsTruthyStr, hname, hc]
  simp [eventConditions, hres]

/-- Witness for C9 at a concrete store: the name "music" resolves the
stored category "Music" case-insensitively and scopes the conditions. -/
theorem category_resolution_scoping_witness :
    ("music" ≠ "") ∧ getCategoryByName dbW icontains "music" = some catMusic ∧
    icontains "music" catMusic.name = true := by
  refine ⟨by decide, by decide, ?_⟩
  exact (category_resolution_scoping dbW icontains none "music" catMusic (by decide)
    (by decide)).1

/-! ## Round-trip lemmas for the query-string model -/

namespace QS

/-- Decoding inverts the hexadecimal digits the encoder emits. -/
theorem hexVal_toHexDigit : ∀ n < 16, hexVal (toHexDigit n) = some n := by decide

/-- The escaped characters are plain ASCII. -/
theorem escaped_toNat_lt (c : Char) (h : escaped c = true) : c.toNat < 256 := by
  simp only [escaped, Bool.or_eq_true, decide_eq_true_eq] at h
  rcases h with ((((((h | h) | h) | h) | h) | h) | h) <;> subst h <;> decide

/-- `decodeC` passes a character through when it opens no escape. -/
theorem decodeC_cons_of_ne (c : Char) (t : List Char) (h1 : c ≠ '%') (h2 : c ≠ '+') :
    decodeC (c :: t) = c :: decodeC t := by
  match t with
  | [] => simp [decodeC, h1, h2]
  | [d] => simp [decodeC, h1, h2]
  | d1 :: d2 :: t2 => simp [decodeC, h1, h2]

/-- `decodeC` decodes a well-formed percent escape. -/
theorem decodeC_pct (a b : Nat) (ha : a < 16) (hb : b < 16) (t : List Char) :
    decodeC ('%' :: toHexDigit a :: toHexDigit b :: t) =
      Char.ofNat (16 * a + b) :: decodeC t := by
  have h1 : hexVal (toHexDigit a) = some a := hexVal_toHexDigit a ha
  have h2 : hexVal (toHexDigit b) = some b := hexVal_toHexDigit b hb
  simp [decodeC, h1, h2]

/-- Decoding inverts the encoding of a single character, whatever follows. -/
theorem decodeC_encodeChar (c : Char) (t : List Char) :
    decodeC (encodeChar c ++ t) = c :: decodeC t := by
  by_cases h : escaped c = true
  · have hlt := escaped_toNat_lt c h
    have ha : c.toNat / 16 < 16 := by omega
    have hb : c.toNat % 16 < 16 := by omega
    rw [encodeChar, if_pos h]
    show decodeC ('%' :: toHexDigit (c.toNat / 16) :: toHexDigit (c.toNat % 16) :: t) = _
    rw [decodeC_pct _ _ ha hb]
    have hm : 16 * (c.toNat / 16) + c.toNat % 16 = c.toNat := by omega
    rw [hm, Char.ofNat_toNat]
  · have h1 : c ≠ '%' := by intro hh; subst hh; exact h (by decide)
    have h2 : c ≠ '+' := by intro hh; subst hh; exact h (by decide)
    rw [encodeChar, if_neg h]
    show decodeC (c :: t) = _
    rw [decodeC_cons_of_ne c t h1 h2]

/-- Decoding inverts encoding. -/
theorem decodeC_encodeC (l : List Char) : decodeC (encodeC l) = l := by
  induction l with
  | nil => rfl
  | cons c t ih =>
    show decodeC (encodeChar c ++ encodeC t) = c :: t
    rw [decodeC_encodeChar, ih]

/-- Every character of an encoded component is unescaped, the escape
character, or a hexadecimal digit. -/
theorem mem_encodeC (d : Char) (l : List Char) (hd : d ∈ encodeC l) :
    escaped d = false ∨ d = '%' ∨ ∃ n, n < 16 ∧ d = toHexDigit n := by
  unfold encodeC at hd
  rw [List.mem_flatten] at hd
  obtain ⟨x, hx, hdx⟩ := hd
  rw [List.mem_map] at hx
  obtain ⟨c, _, hc⟩ := hx
  subst hc
  unfold encodeChar at hdx
  by_cases h : escaped c = true
  · rw [if_pos h] at hdx
    have hlt := escaped_toNat_lt c h
    rcases List.mem_cons.mp hdx with hdx | hdx
    · exact Or.inr (Or.inl hdx)
    rcases List.mem_cons.mp hdx with hdx | hdx
    · exact Or.inr (Or.inr ⟨c.toNat / 16, by omega, hdx⟩)
    rcases List.mem_cons.mp hdx with hdx | hdx
    · exact Or.inr (Or.inr ⟨c.toNat % 16, by omega, hdx⟩)
    · cases hdx
  · rw [if_neg h] at hdx
    rcases List.mem_cons.mp hdx with hdx | hdx
    · subst hdx
      exact Or.inl (by simpa using h)
    · cases hdx

/-- A query-delimiter character never occurs in an encoded component. -/
theorem not_mem_encodeC_of (d : Char) (h1 : escaped d = true) (h2 : d ≠ '%')
    (h3 : ∀ n, n < 16 → toHexDigit n ≠ d) (l : List Char) : d ∉ encodeC l := by
  intro hd
  rcases mem_encodeC d l hd with h | h | ⟨n, hn, he⟩
  · rw [h1] at h
    cases h
  · exact h2 h
  · exact h3 n hn he.symm

/-- `&` never occurs in an encoded component. -/
theorem amp_not_mem_encodeC (l : List Char) : '&' ∉ encodeC l :=
  not_mem_encodeC_of '&' (by decide) (by decide) (by decide) l

/-- `=` never occurs in an encoded component. -/
theorem eqc_not_mem_encodeC (l : List Char) : '=' ∉ encodeC l :=
  not_mem_encodeC_of '=' (by decide) (by decide) (by decide) l

/-- `?` never occurs in an encoded component. -/
theorem qmark_not_mem_encodeC (l : List Char) : '?' ∉ encodeC l :=
  not_mem_encodeC_of '?' (by decide) (by decide) (by decide) l

/-- `#` never occurs in an encoded component. -/
theorem hash_not_mem_encodeC (l : List Char) : '#' ∉ encodeC l :=
  not_mem_encodeC_of '#' (by decide) (by decide) (by decide) l

/-- A split always yields at least one group. -/
theorem splitAmp_ne_nil : ∀ l : List Char, splitAmp l ≠ [] := by
  intro l
  induction l with
  | nil => simp [splitAmp]
  | cons c t ih =>
    by_cases h : c = '&'
    · simp [splitAmp, h]
    · simp only [splitAmp, if_neg h]
      cases hsp : splitAmp t with
      | nil => simp
      | cons g gs => simp

/-- Splitting a separator-free list yields the list itself. -/
theorem splitAmp_no_amp (x : List Char) (hx : '&' ∉ x) : splitAmp x = [x] := by
  induction x with
  | nil => rfl
  | cons c t ih =>
    have hc : c ≠ '&' := fun h => hx (h ▸ List.mem_cons_self c t)
    have ht : '&' ∉ t := fun h => hx (List.mem_cons_of_mem c h)
    simp only [splitAmp, if_neg hc, ih ht]

/-- Splitting after a separator-free head group peels it off. -/
theorem splitAmp_append_amp (x r : List Char) (hx : '&' ∉ x) :
    splitAmp (x ++ '&' :: r) = x :: splitAmp r := by
  induction x with
  | nil => simp [splitAmp]
  | cons c t ih =>
    have hc : c ≠ '&' := fun h => hx (h ▸ List.mem_cons_self c t)
    have ht : '&' ∉ t := fun h => hx (List.mem_cons_of_mem c h)
    rw [List.cons_append]
    simp only [splitAmp, if_neg hc, ih ht]

/-- Splitting inverts joining for a non-empty list of separator-free
groups. -/
theorem splitAmp_joinAmp : ∀ items : List (List Char), items ≠ [] →
    (∀ i ∈ items, '&' ∉ i) → splitAmp (joinAmp items) = items := by
  intro items
  induction items with
  | nil => intro h; cases h rfl
  | cons x xs ih =>
    intro _ hall
    cases xs with
    | nil =>
      show splitAmp (joinAmp [x]) = [x]
      rw [joinAmp]
      exact splitAmp_no_amp x (hall x (List.mem_cons_self x []))
    | cons y ys =>
      rw [joinAmp, splitAmp_append_amp _ _ (hall x (List.mem_cons_self _ _))]
      rw [ih (List.cons_ne_nil y ys) (fun i hi => hall i (List.mem_cons_of_mem x hi))]
      exact fun h => List.noConfusion h

/-- Splitting a component at the `=` that was inserted between an
`=`-free key and the value. -/
theorem splitFirstEq_append (k v : List Char) (hk : '=' ∉ k) :
    splitFirstEq (k ++ '=' :: v) = (k, some v) := by
  induction k with
  | nil => simp [splitFirstEq]
  | cons c t ih =>
    have hc : c ≠ '=' := fun h => hk (h ▸ List.mem_cons_self c t)
    have ht : '=' ∉ t := fun h => hk (List.mem_cons_of_mem c h)
    rw [List.cons_append]
    simp only [splitFirstEq, if_neg hc, ih ht]

/-- A serialized item is never empty. -/
theorem itemChars_ne_nil (k v : List Char) : itemChars k v ≠ [] := by
  unfold itemChars
  simp [List.append_eq_nil]

/-- A serialized item never contains the group separator. -/
theorem amp_not_mem_itemChars (k v : List Char) : '&' ∉ itemChars k v := by
  unfold itemChars
  intro h
  rcases List.mem_append.mp h with h | h
  · exact amp_not_mem_encodeC k h
  · rcases List.mem_cons.mp h with h | h
    · exact absurd h (by decide)
    · exact amp_not_mem_encodeC v h

/-- Parsing a serialized item recovers the key and the value. -/
theorem parseComp_itemChars (k v : List Char) : parseComp (itemChars k v) = (k, some v) := by
  unfold parseComp itemChars
  rw [splitFirstEq_append _ _ (eqc_not_mem_encodeC k)]
  simp [decodeC_encodeC]

/-- `stripLead` keeps a list whose head is no stripped character. -/
theorem stripLead_eq_self (l : List Char)
    (h : ∀ c, l.head? = some c → ¬(c = '?' ∨ c = '#' ∨ c = '&')) : stripLead l = l := by
  cases l with
  | nil => rfl
  | cons c t =>
    have hc := h c rfl
    have h1 : c ≠ '?' := fun hh => hc (Or.inl hh)
    have h2 : c ≠ '#' := fun hh => hc (Or.inr (Or.inl hh))
    have h3 : c ≠ '&' := fun hh => hc (Or.inr (Or.inr hh))
    simp [stripLead, h1, h2, h3]

/-- Every item in the stringified output is a serialized key/value item. -/
theorem mem_allItems (i : List Char) (m : QMap) (h : i ∈ allItems m) :
    ∃ k v, i = itemChars k v := by
  unfold allItems at h
  rw [List.mem_flatten] at h
  obtain ⟨x, hx, hix⟩ := h
  rw [List.mem_map] at hx
  obtain ⟨p, _, hp⟩ := hx
  subst hp
  unfold entryItems at hix
  rw [List.mem_map] at hix
  obtain ⟨v, _, hv⟩ := hix
  exact ⟨p.1, v, hv.symm⟩

/-- The head of a serialized item is no stripped character. -/
theorem itemChars_head_ok (k v : List Char) (c : Char)
    (h : (itemChars k v).head? = some c) : ¬(c = '?' ∨ c = '#' ∨ c = '&') := by
  unfold itemChars at h
  cases he : encodeC k with
  | nil =>
    rw [he] at h
    simp only [List.nil_append, List.head?_cons, Option.some.injEq] at h
    subst h
    decide
  | cons a t =>
    rw [he] at h
    simp only [List.cons_append, List.head?_cons, Option.some.injEq] at h
    subst h
    intro hc
    rcases hc with hc | hc | hc <;> subst hc
    · exact qmark_not_mem_encodeC k (by rw [he]; exact List.mem_cons_self _ _)
    · exact hash_not_mem_encodeC k (by rw [he]; exact List.mem_cons_self _ _)
    · exact amp_not_mem_encodeC k (by rw [he]; exact List.mem_cons_self _ _)

/-- The join of a non-empty item list starts with the first item. -/
theorem joinAmp_head_cons (x : List Char) (xs : List (List Char)) :
    ∃ t, joinAmp (x :: xs) = x ++ t := by
  cases xs with
  | nil => exact ⟨[], (List.append_nil x).symm⟩
  | cons y ys => exact ⟨'&' :: joinAmp (y :: ys), rfl⟩

/-- A key-targeting rewrite leaves entries with other keys alone. -/
theorem map_if_key_eq_self (acc : QMap) (k : List Char)
    (g : List Char × List (Option (List Char)) → List Char × List (Option (List Char)))
    (h : ∀ p ∈ acc, p.1 ≠ k) :
    acc.map (fun p => if p.1 = k then g p else p) = acc := by
  have h2 : ∀ p ∈ acc, (if p.1 = k then g p else p) = p := fun p hp => if_neg (h p hp)
  rw [List.map_congr_left h2, List.map_id']

/-- `hasKey` is false on an object whose entries all have other keys. -/
theorem hasKey_eq_false (m : QMap) (k : List Char) (h : ∀ p ∈ m, p.1 ≠ k) :
    hasKey m k = false := by
  unfold hasKey
  rw [List.any_eq_false]
  intro p hp
  simp [h p hp]

/-- `hasKey` sees a key in the last position. -/
theorem hasKey_append_last (acc : QMap) (k : List Char) (ws : List (Option (List Char))) :
    hasKey (acc ++ [(k, ws)]) k = true := by
  unfold hasKey
  rw [List.any_eq_true]
  exact ⟨(k, ws), by simp, by simp⟩

/-- Accumulating into a fresh key appends an entry. -/
theorem addEntry_fresh (acc : QMap) (k : List Char) (v : Option (List Char))
    (h : ∀ p ∈ acc, p.1 ≠ k) : addEntry acc k v = acc ++ [(k, [v])] := by
  unfold addEntry
  rw [hasKey_eq_false acc k h]
  rfl

/-- Accumulating into the key of the last entry extends its value list. -/
theorem addEntry_append_last (acc : QMap) (k : List Char) (ws : List (Option (List Char)))
    (v : Option (List Char)) (h : ∀ p ∈ acc, p.1 ≠ k) :
    addEntry (acc ++ [(k, ws)]) k v = acc ++ [(k, ws ++ [v])] := by
  unfold addEntry
  rw [hasKey_append_last]
  rw [if_pos rfl, List.map_append, map_if_key_eq_self acc k _ h]
  simp

/-- A parse step on a serialized item accumulates the key and value. -/
theorem parseStep_item (acc : QMap) (k v : List Char) :
    parseStep acc (itemChars k v) = addEntry acc k (some v) := by
  unfold parseStep
  rw [if_neg (itemChars_ne_nil k v), parseComp_itemChars]

/-- Folding the remaining items of one entry extends the last entry's
value list. -/
theorem foldl_items_grow (k : List Char) (vs : List (List Char)) :
    ∀ (acc : QMap) (ws : List (Option (List Char))), (∀ p ∈ acc, p.1 ≠ k) →
      (vs.map (itemChars k)).foldl parseStep (acc ++ [(k, ws)]) =
        acc ++ [(k, ws ++ vs.map some)] := by
  induction vs with
  | nil => intro acc ws _; simp
  | cons v vt ih =>
    intro acc ws h
    rw [List.map_cons, List.foldl_cons, parseStep_item, addEntry_append_last acc k ws (some v) h]
    rw [ih acc (ws ++ [some v]) h]
    simp

/-- `dropNulls` distributes over the head entry. -/
theorem dropNulls_cons (p : List Char × List (Option (List Char))) (m : QMap) :
    dropNulls (p :: m) = dropNulls [p] ++ dropNulls m := by
  by_cases hp : (((p.2.filterMap id).map some)).isEmpty
  · simp [dropNulls, List.filter_cons, hp]
  · simp [dropNulls, List.filter_cons, hp]

/-- Folding the items of one entry appends its non-null normal form. -/
theorem foldl_entry (k : List Char) (vs : List (Option (List Char))) (acc : QMap)
    (h : ∀ p ∈ acc, p.1 ≠ k) :
    (entryItems (k, vs)).foldl parseStep acc = acc ++ dropNulls [(k, vs)] := by
  unfold entryItems
  cases hv : vs.filterMap id with
  | nil =>
    simp only [List.map_nil, List.foldl_nil]
    have hd : dropNulls [(k, vs)] = [] := by
      unfold dropNulls
      simp [hv]
    rw [hd, List.append_nil]
  | cons v vt =>
    rw [List.map_cons, List.foldl_cons, parseStep_item, addEntry_fresh acc k (some v) h]
    rw [foldl_items_grow k vt acc [some v] h]
    have hd : dropNulls [(k, vs)] = [(k, (v :: vt).map some)] := by
      unfold dropNulls
      simp [hv]
    rw [hd]
    simp

/-- An object without any serialized item has an empty normal form. -/
theorem dropNulls_eq_nil_of_allItems_nil : ∀ m : QMap, allItems m = [] → dropNulls m = [] := by
  intro m
  induction m with
  | nil => intro _; rfl
  | cons e t ih =>
    intro h
    have hsplit : entryItems e = [] ∧ allItems t = [] := by
      have he : allItems (e :: t) = entryItems e ++ allItems t := by
        unfold allItems
        rw [List.map_cons, List.flatten_cons]
      rw [he] at h
      exact List.append_eq_nil.mp h
    rw [dropNulls_cons, ih hsplit.2, List.append_nil]
    have hfm : e.2.filterMap id = [] := by
      have := hsplit.1
      unfold entryItems at this
      exact List.map_eq_nil_iff.mp this
    unfold dropNulls
    simp [hfm]

/-- Folding all serialized items of an object with distinct keys appends
its normal form. -/
theorem parse_fold_blocks : ∀ (m : QMap) (acc : QMap),
    (keys m).Nodup → (∀ p ∈ acc, p.1 ∉ keys m) →
    (allItems m).foldl parseStep acc = acc ++ dropNulls m := by
  intro m
  induction m with
  | nil =>
    intro acc _ _
    simp [allItems, dropNulls]
  | cons e t ih =>
    intro acc hnd hdis
    have he : allItems (e :: t) = entryItems e ++ allItems t := by
      unfold allItems
      rw [List.map_cons, List.flatten_cons]
    rw [he, List.foldl_append]
    have hnd2 : (e.1 :: keys t).Nodup := hnd
    rw [List.nodup_cons] at hnd2
    have hke : ∀ p ∈ acc, p.1 ≠ e.1 := by
      intro p hp hh
      exact hdis p hp (hh ▸ List.mem_cons_self e.1 (keys t))
    rw [foldl_entry e.1 e.2 acc hke]
    rw [ih (acc ++ dropNulls [(e.1, e.2)]) hnd2.2 ?_]
    · rw [List.append_assoc, ← dropNulls_cons]
    · intro p hp
      rcases List.mem_append.mp hp with hp | hp
      · intro hk
        exact hdis p hp (List.mem_cons_of_mem _ hk)
      · have hp1 : p.1 = e.1 := by
          unfold dropNulls at hp
          rcases List.mem_filter.mp hp with ⟨hp2, _⟩
          simp only [List.map_cons, List.map_nil, List.mem_singleton] at hp2
          rw [hp2]
        exact hp1 ▸ hnd2.1

/-- The stringified output never starts with a stripped character. -/
theorem stripLead_stringifyQC (m : QMap) : stripLead (stringifyQC m) = stringifyQC m := by
  unfold stringifyQC
  cases h : allItems m with
  | nil => rfl
  | cons i rest =>
    obtain ⟨k, v, hi⟩ := mem_allItems i m (by rw [h]; exact List.mem_cons_self _ _)
    obtain ⟨t, ht⟩ := joinAmp_head_cons i rest
    rw [ht]
    apply stripLead_eq_self
    intro c hc
    subst hi
    cases he : itemChars k v with
    | nil => exact absurd he (itemChars_ne_nil k v)
    | cons a b =>
      rw [he] at hc
      simp only [List.cons_append, List.head?_cons, Option.some.injEq] at hc
      subst hc
      exact itemChars_head_ok k v a (by rw [he]; rfl)

/-- Parsing inverts stringification on an object with distinct keys. -/
theorem parseQ_stringifyQC (m : QMap) (h : (keys m).Nodup) :
    parseQ (stringifyQC m) = dropNulls m := by
  unfold parseQ
  rw [stripLead_stringifyQC]
  show (splitAmp (joinAmp (allItems m))).foldl parseStep [] = dropNulls m
  cases hi : allItems m with
  | nil =>
    rw [dropNulls_eq_nil_of_allItems_nil m hi]
    rfl
  | cons i rest =>
    rw [splitAmp_joinAmp (i :: rest) (List.cons_ne_nil i rest) ?_]
    · rw [← hi, parse_fold_blocks m [] h (by simp)]
      rfl
    · intro j hj
      obtain ⟨k, v, hk⟩ := mem_allItems j m (hi ▸ hj)
      subst hk
      exact amp_not_mem_itemChars k v

/-- `setKey` preserves or appends the key list. -/
theorem keys_setKey (m : QMap) (k : List Char) (v : Option (List Char)) :
    keys (setKey m k v) = if hasKey m k then keys m else keys m ++ [k] := by
  unfold setKey keys
  by_cases h : hasKey m k
  · rw [if_pos h, if_pos h, List.map_map]
    apply List.map_congr_left
    intro p _
    by_cases hpk : p.1 = k
    · simp [hpk]
    · simp [hpk]
  · rw [if_neg h, if_neg h]
    simp

/-- A missing key is absent from the key list. -/
theorem not_mem_keys_of_hasKey_eq_false (m : QMap) (k : List Char)
    (h : hasKey m k = false) : k ∉ keys m := by
  intro hmem
  unfold keys at hmem
  rw [List.mem_map] at hmem
  obtain ⟨p, hp, hpk⟩ := hmem
  have : hasKey m k = true := by
    unfold hasKey
    rw [List.any_eq_true]
    exact ⟨p, hp, by simp [hpk]⟩
  rw [h] at this
  cases this

/-- `setKey` preserves distinctness of the keys. -/
theorem nodup_keys_setKey (m : QMap) (k : List Char) (v : Option (List Char))
    (h : (keys m).Nodup) : (keys (setKey m k v)).Nodup := by
  rw [keys_setKey]
  by_cases hk : hasKey m k
  · rw [if_pos hk]
    exact h
  · rw [if_neg hk]
    have hnot : k ∉ keys m :=
      not_mem_keys_of_hasKey_eq_false m k (by simpa using hk)
    simp [List.nodup_append, h, hnot]

/-- The assigned entry is present after `setKey`. -/
theorem mem_setKey_self (m : QMap) (k : List Char) (v : Option (List Char)) :
    (k, [v]) ∈ setKey m k v := by
  unfold setKey
  by_cases h : hasKey m k
  · rw [if_pos h]
    have hex : ∃ p ∈ m, p.1 = k := by
      unfold hasKey at h
      rw [List.any_eq_true] at h
      obtain ⟨p, hp, hpk⟩ := h
      exact ⟨p, hp, by simpa using hpk⟩
    obtain ⟨p, hp, hpk⟩ := hex
    exact List.mem_map.mpr ⟨p, hp, by simp [hpk]⟩
  · rw [if_neg h]
    simp

/-- A non-null singleton entry survives `dropNulls`. -/
theorem mem_dropNulls_of_mem (m : QMap) (k : List Char) (v : List Char)
    (h : (k, [some v]) ∈ m) : (k, [some v]) ∈ dropNulls m := by
  unfold dropNulls
  rw [List.mem_filter]
  constructor
  · rw [List.mem_map]
    exact ⟨(k, [some v]), h, by simp⟩
  · simp

/-- On an object with distinct keys an entry is determined by its key. -/
theorem eq_of_mem_nodup_keys : ∀ m : QMap, (keys m).Nodup →
    ∀ p q, p ∈ m → q ∈ m → p.1 = q.1 → p = q := by
  intro m
  induction m with
  | nil =>
    intro _ p q hp
    cases hp
  | cons a t ih =>
    intro h p q hp hq hpq
    have hnd : (a.1 :: keys t).Nodup := h
    rw [List.nodup_cons] at hnd
    rcases List.mem_cons.mp hp with hp1 | hp1 <;> rcases List.mem_cons.mp hq with hq1 | hq1
    · rw [hp1, hq1]
    · subst hp1
      exact absurd (hpq ▸ List.mem_map.mpr ⟨q, hq1, rfl⟩) hnd.1
    · subst hq1
      exact absurd (hpq ▸ List.mem_map.mpr ⟨p, hp1, rfl⟩) hnd.1
    · exact ih hnd.2 p q hp1 hq1 hpq

/-- Re-assigning a key to the value it already has is the identity. -/
theorem setKey_mem_eq_self (m : QMap) (k : List Char) (v : Option (List Char))
    (hnd : (keys m).Nodup) (h : (k, [v]) ∈ m) : setKey m k v = m := by
  unfold setKey
  have hk : hasKey m k = true := by
    unfold hasKey
    rw [List.any_eq_true]
    exact ⟨(k, [v]), h, by simp⟩
  rw [if_pos hk]
  have h2 : ∀ p ∈ m, (if p.1 = k then (k, [v]) else p) = p := by
    intro p hp
    by_cases hpk : p.1 = k
    · rw [if_pos hpk]
      exact eq_of_mem_nodup_keys m hnd (k, [v]) p h hp (by simp [hpk])
    · rw [if_neg hpk]
  rw [List.map_congr_left h2, List.map_id']

/-- `allItems` distributes over appending. -/
theorem allItems_append (a b : QMap) : allItems (a ++ b) = allItems a ++ allItems b := by
  unfold allItems
  rw [List.map_append, List.flatten_append]

/-- The single-entry normal form serializes to the entry's items. -/
theorem allItems_dropNulls_single (e : List Char × List (Option (List Char))) :
    allItems (dropNulls [e]) = entryItems e := by
  unfold dropNulls entryItems
  cases hv : e.2.filterMap id with
  | nil => simp [hv, allItems]
  | cons v vt =>
    simp only [List.map_cons, List.map_nil, hv, List.filter_cons]
    simp [allItems, entryItems, List.filterMap_map]

/-- Null entries do not change the serialized items. -/
theorem allItems_dropNulls (m : QMap) : allItems (dropNulls m) = allItems m := by
  induction m with
  | nil => rfl
  | cons e t ih =>
    rw [dropNulls_cons, allItems_append, ih, allItems_dropNulls_single]
    unfold allItems
    rw [List.map_cons, List.flatten_cons]

/-- Null entries do not change the stringified output. -/
theorem stringifyQC_dropNulls (m : QMap) : stringifyQC (dropNulls m) = stringifyQC m := by
  unfold stringifyQC
  rw [allItems_dropNulls]

/-- Deleting keys commutes with dropping nulls. -/
theorem delKeys_dropNulls_comm : ∀ (m : QMap) (ks : List (List Char)),
    delKeys (dropNulls m) ks = dropNulls (delKeys m ks) := by
  intro m ks
  induction m with
  | nil => rfl
  | cons e t ih =>
    by_cases hk : e.1 ∈ ks
    · by_cases he : (((e.2.filterMap id).map some)).isEmpty
      · simp [delKeys, dropNulls, List.filter_cons, hk, he] at ih ⊢
        exact ih
      · simp [delKeys, dropNulls, List.filter_cons, hk, he] at ih ⊢
        exact ih
    · by_cases he : (((e.2.filterMap id).map some)).isEmpty
      · simp [delKeys, dropNulls, List.filter_cons, hk, he] at ih ⊢
        exact ih
      · simp [delKeys, dropNulls, List.filter_cons, hk, he] at ih ⊢
        exact ih

/-- Deleting keys twice is deleting them once. -/
theorem delKeys_idem (m : QMap) (ks : List (List Char)) :
    delKeys (delKeys m ks) ks = delKeys m ks := by
  unfold delKeys
  rw [List.filter_filter]
  apply List.filter_congr
  intro p _
  simp [Bool.and_self]

/-- `addEntry` preserves distinctness of the keys. -/
theorem nodup_keys_addEntry (m : QMap) (k : List Char) (v : Option (List Char))
    (h : (keys m).Nodup) : (keys (addEntry m k v)).Nodup := by
  unfold addEntry
  by_cases hk : hasKey m k
  · rw [if_pos hk]
    have hkeys : keys (m.map (fun p => if p.1 = k then (k, p.2 ++ [v]) else p)) = keys m := by
      unfold keys
      rw [List.map_map]
      apply List.map_congr_left
      intro p _
      by_cases hpk : p.1 = k
      · simp [hpk]
      · simp [hpk]
    rw [hkeys]
    exact h
  · rw [if_neg hk]
    have hnot : k ∉ keys m :=
      not_mem_keys_of_hasKey_eq_false m k (by simpa using hk)
    unfold keys
    rw [List.map_append]
    simp [List.nodup_append, h, hnot, keys] at hnot ⊢
    exact ⟨h, hnot⟩

/-- A parsed object has distinct keys. -/
theorem parseQ_keys_nodup (l : List Char) : (keys (parseQ l)).Nodup := by
  unfold parseQ
  have hgen : ∀ (cs : List (List Char)) (acc : QMap), (keys acc).Nodup →
      (keys (cs.foldl parseStep acc)).Nodup := by
    intro cs
    induction cs with
    | nil => intro acc h; exact h
    | cons c ct ih =>
      intro acc h
      rw [List.foldl_cons]
      apply ih
      unfold parseStep
      by_cases hc : c = []
      · rw [if_pos hc]
        exact h
      · rw [if_neg hc]
        exact nodup_keys_addEntry _ _ _ h
  exact hgen _ [] (by simp [keys])

/-- `delKeys` preserves distinctness of the keys. -/
theorem nodup_keys_delKeys (m : QMap) (ks : List (List Char))
    (h : (keys m).Nodup) : (keys (delKeys m ks)).Nodup := by
  unfold delKeys keys
  have hs : ((m.filter (fun p => decide (p.1 ∉ ks))).map (fun p => p.1)).Sublist
      (m.map (fun p => p.1)) := (List.filter_sublist m).map _
  exact List.Nodup.sublist hs h

/-- `dropNulls` preserves distinctness of the keys. -/
theorem nodup_keys_dropNulls (m : QMap) (h : (keys m).Nodup) :
    (keys (dropNulls m)).Nodup := by
  unfold dropNulls keys
  have hs : (((m.map (fun p => (p.1, (p.2.filterMap id).map some))).filter
      (fun p => !p.2.isEmpty)).map (fun p => p.1)).Sublist
      ((m.map (fun p => (p.1, (p.2.filterMap id).map some))).map (fun p => p.1)) :=
    (List.filter_sublist _).map _
  have heq : (m.map (fun p => (p.1, (p.2.filterMap id).map some))).map (fun p => p.1) =
      m.map (fun p => p.1) := by
    rw [List.map_map]
    rfl
  exact List.Nodup.sublist hs (heq ▸ h)

/-- The query portion of a query-free path with an appended query. -/
theorem queryOfC_append (path q : List Char) (h : '?' ∉ path) :
    queryOfC (path ++ '?' :: q) = q := by
  induction path with
  | nil => simp [queryOfC]
  | cons c t ih =>
    have hc : c ≠ '?' := fun hh => h (hh ▸ List.mem_cons_self _ _)
    have ht : '?' ∉ t := fun hh => h (List.mem_cons_of_mem _ hh)
    rw [List.cons_append]
    simp only [queryOfC, if_neg hc]
    exact ih ht

/-- A query-free URL has an empty query portion. -/
theorem queryOfC_no_qmark (path : List Char) (h : '?' ∉ path) : queryOfC path = [] := by
  induction path with
  | nil => rfl
  | cons c t ih =>
    have hc : c ≠ '?' := fun hh => h (hh ▸ List.mem_cons_self _ _)
    have ht : '?' ∉ t := fun hh => h (List.mem_cons_of_mem _ hh)
    simp only [queryOfC, if_neg hc]
    exact ih ht

/-- A non-empty item list stringifies to a non-empty query. -/
theorem stringifyQC_ne_nil_of_allItems (m : QMap) (h : allItems m ≠ []) :
    stringifyQC m ≠ [] := by
  unfold stringifyQC
  cases hi : allItems m with
  | nil => exact absurd hi h
  | cons i rest =>
    obtain ⟨k, v, hk⟩ := mem_allItems i m (hi ▸ List.mem_cons_self _ _)
    obtain ⟨t, ht⟩ := joinAmp_head_cons i rest
    rw [ht, hk]
    intro hnil
    exact itemChars_ne_nil k v (List.append_eq_nil.mp hnil).1

/-- An object holding a non-null singleton entry serializes at least one
item. -/
theorem allItems_ne_nil_of_mem (m : QMap) (k : List Char) (v : List Char)
    (h : (k, [some v]) ∈ m) : allItems m ≠ [] := by
  intro hnil
  have hd := dropNulls_eq_nil_of_allItems_nil m hnil
  have hmem := mem_dropNulls_of_mem m k v h
  rw [hd] at hmem
  cases hmem

/-- The round trip: parsing the query portion of a stringified URL over a
query-free path yields the object's normal form. -/
theorem parse_queryOf_stringifyUrl (path : List Char) (m : QMap)
    (hpath : '?' ∉ path) (hnd : (keys m).Nodup) :
    parseQ (queryOfC (stringifyUrlC path m)) = dropNulls m := by
  unfold stringifyUrlC
  by_cases hq : stringifyQC m = []
  · rw [if_pos hq, queryOfC_no_qmark path hpath]
    have hai : allItems m = [] := by
      by_contra hne
      exact stringifyQC_ne_nil_of_allItems m hne hq
    rw [dropNulls_eq_nil_of_allItems_nil m hai]
    rfl
  · rw [if_neg hq, queryOfC_append path _ hpath]
    exact parseQ_stringifyQC m hnd

/-- Looking up a present key on an object with distinct keys returns its
value list. -/
theorem lookupKey_of_mem (m : QMap) (k : List Char) (vs : List (Option (List Char)))
    (hnd : (keys m).Nodup) (h : (k, vs) ∈ m) : lookupKey m k = some vs := by
  unfold lookupKey
  cases hf : m.find? (fun p => decide (p.1 = k)) with
  | none =>
    rw [List.find?_eq_none] at hf
    exact absurd (by simp) (hf (k, vs) h)
  | some p =>
    have hp1 : p.1 = k := by simpa using List.find?_some hf
    have hpm := List.mem_of_find?_eq_some hf
    have hpq : p = (k, vs) := eq_of_mem_nodup_keys m hnd p (k, vs) hpm h (by simp [hp1])
    rw [hpq]
    rfl

end QS

/-- Idempotence of `formUrlQuery`: re-applying it with the same key and
value to the query portion of its own result reproduces the URL, for any
query-free pathname. -/
theorem formUrlQuery_idem (pathname params key value : String)
    (hpath : '?' ∉ pathname.toList) :
    formUrlQuery pathname ⟨queryOf (formUrlQuery pathname ⟨params, key, value⟩), key, value⟩ =
      formUrlQuery pathname ⟨params, key, value⟩ := by
  unfold formUrlQuery queryOf
  have hnd0 : (QS.keys (QS.parseQ params.toList)).Nodup := QS.parseQ_keys_nodup _
  have hnd1 : (QS.keys (QS.setKey (QS.parseQ params.toList) key.toList
      (some value.toList))).Nodup := QS.nodup_keys_setKey _ _ _ hnd0
  show String.mk (QS.stringifyUrlC pathname.toList
      (QS.setKey (QS.parseQ (QS.queryOfC (QS.stringifyUrlC pathname.toList
        (QS.setKey (QS.parseQ params.toList) key.toList (some value.toList)))))
        key.toList (some value.toList))) = _
  rw [QS.parse_queryOf_stringifyUrl pathname.toList _ hpath hnd1]
  have hmem : (key.toList, [some value.toList]) ∈
      QS.setKey (QS.parseQ params.toList) key.toList (some value.toList) :=
    QS.mem_setKey_self _ _ _
  have hmem2 := QS.mem_dropNulls_of_mem _ _ _ hmem
  have hnd2 := QS.nodup_keys_dropNulls _ hnd1
  rw [QS.setKey_mem_eq_self _ _ _ hnd2 hmem2]
  unfold QS.stringifyUrlC
  rw [QS.stringifyQC_dropNulls]

/-- Idempotence of `removeKeysFromQuery`: re-applying it with the same
keys to the query portion of its own result reproduces the URL, for any
query-free pathname. -/
theorem removeKeysFromQuery_idem (pathname params : String) (ks : List String)
    (hpath : '?' ∉ pathname.toList) :
    removeKeysFromQuery pathname ⟨queryOf (removeKeysFromQuery pathname ⟨params, ks⟩), ks⟩ =
      removeKeysFromQuery pathname ⟨params, ks⟩ := by
  unfold removeKeysFromQuery queryOf
  have hnd0 : (QS.keys (QS.parseQ params.toList)).Nodup := QS.parseQ_keys_nodup _
  have hnd1 : (QS.keys (QS.delKeys (QS.parseQ params.toList)
      (ks.map String.toList))).Nodup := QS.nodup_keys_delKeys _ _ hnd0
  show String.mk (QS.stringifyUrlC pathname.toList
      (QS.delKeys (QS.parseQ (QS.queryOfC (QS.stringifyUrlC pathname.toList
        (QS.delKeys (QS.parseQ params.toList) (ks.map String.toList)))))
        (ks.map String.toList))) = _
  rw [QS.parse_queryOf_stringifyUrl pathname.toList _ hpath hnd1]
  rw [QS.delKeys_dropNulls_comm, QS.delKeys_idem]
  unfold QS.stringifyUrlC
  rw [QS.stringifyQC_dropNulls]

/-- C4.  `formUrlQuery` and `removeKeysFromQuery` are idempotent: applying
either a second time (with the same key and value, or the same keys to
remove) to the query portion of its own result yields the same URL, for
every query string and every query-free pathname. -/
theorem urlQuery_functions_idempotent :
    (∀ pathname params key value, '?' ∉ pathname.toList →
      formUrlQuery pathname
          ⟨queryOf (formUrlQuery pathname ⟨params, key, value⟩), key, value⟩ =
        formUrlQuery pathname ⟨params, key, value⟩) ∧
    (∀ pathname params keysToRemove, '?' ∉ pathname.toList →
      removeKeysFromQuery pathname
          ⟨queryOf (removeKeysFromQuery pathname ⟨params, keysToRemove⟩), keysToRemove⟩ =
        removeKeysFromQuery pathname ⟨params, keysToRemove⟩) :=
  ⟨fun pathname params key value h => formUrlQuery_idem pathname params key value h,
   fun pathname params ks h => removeKeysFromQuery_idem pathname params ks h⟩

/-- Witness for C4 at concrete URLs (with a null-valued key `b` that the
first stringify drops, and a repeated key for the removal). -/
theorem urlQuery_functions_idempotent_witness :
    ('?' ∉ "/events".toList) ∧
    formUrlQuery "/events"
        ⟨queryOf (formUrlQuery "/events" ⟨"a=1&b&c=x%20y", "page", "2"⟩), "page", "2"⟩ =
      formUrlQuery "/events" ⟨"a=1&b&c=x%20y", "page", "2"⟩ ∧
    removeKeysFromQuery "/events"
        ⟨queryOf (removeKeysFromQuery "/events" ⟨"a=1&b=2&a=3", ["a"]⟩), ["a"]⟩ =
      removeKeysFromQuery "/events" ⟨"a=1&b=2&a=3", ["a"]⟩ :=
  ⟨by decide,
   urlQuery_functions_idempotent.1 "/events" "a=1&b&c=x%20y" "page" "2" (by decide),
   urlQuery_functions_idempotent.2 "/events" "a=1&b=2&a=3" ["a"] (by decide)⟩

/-- C10.  In the `Pagination` component the Previous button is disabled
exactly when `Number(page) <= 1` and the Next button exactly when
`Number(page) >= totalPages`; a click with button type `'next'` sets the
URL parameter named `urlParamName` (defaulting to `'page'`) to
`Number(page) + 1` in the pushed URL's query, and a click with any other
button type sets it to `Number(page) - 1`. -/
theorem pagination_component_behavior :
    ∀ (props : PaginationProps) (pathname searchParams btnType : String),
      '?' ∉ pathname.toList →
      (paginationPrevDisabled props = true ↔ props.page ≤ 1) ∧
      (paginationNextDisabled props = true ↔ props.page ≥ props.totalPages) ∧
      (btnType = "next" →
        QS.lookupKey
            (QS.parseQ (queryOf (paginationOnClick pathname searchParams props btnType)).toList)
            (jsOrStr props.urlParamName "page").toList =
          some [some (toString (props.page + 1)).toList]) ∧
      (btnType ≠ "next" →
        QS.lookupKey
            (QS.parseQ (queryOf (paginationOnClick pathname searchParams props btnType)).toList)
            (jsOrStr props.urlParamName "page").toList =
          some [some (toString (props.page - 1)).toList]) := by
  intro props pathname sp bt hpath
  have hcore : ∀ value : String,
      QS.lookupKey (QS.parseQ (queryOf (formUrlQuery pathname
          { params := sp, key := jsOrStr props.urlParamName "page", value := value })).toList)
        (jsOrStr props.urlParamName "page").toList = some [some value.toList] := by
    intro value
    unfold formUrlQuery queryOf
    have hnd0 : (QS.keys (QS.parseQ sp.toList)).Nodup := QS.parseQ_keys_nodup _
    have hnd1 : (QS.keys (QS.setKey (QS.parseQ sp.toList)
        (jsOrStr props.urlParamName "page").toList (some value.toList))).Nodup :=
      QS.nodup_keys_setKey _ _ _ hnd0
    show QS.lookupKey (QS.parseQ (QS.queryOfC (QS.stringifyUrlC pathname.toList
        (QS.setKey (QS.parseQ sp.toList) (jsOrStr props.urlParamName "page").toList
          (some value.toList))))) (jsOrStr props.urlParamName "page").toList = _
    rw [QS.parse_queryOf_stringifyUrl pathname.toList _ hpath hnd1]
    exact QS.lookupKey_of_mem _ _ _ (QS.nodup_keys_dropNulls _ hnd1)
      (QS.mem_dropNulls_of_mem _ _ _ (QS.mem_setKey_self _ _ _))
  refine ⟨by simp [paginationPrevDisabled], by simp [paginationNextDisabled, ge_iff_le], ?_, ?_⟩
  · intro hbt
    unfold paginationOnClick
    rw [if_pos hbt]
    exact hcore (toString (props.page + 1))
  · intro hbt
    unfold paginationOnClick
    rw [if_neg hbt]
    exact hcore (toString (props.page - 1))

/-- Witness for C10 at concrete props and URLs: a next click from page 2
of 5 pushes `page=3`, a previous click pushes `page=1`. -/
theorem pagination_component_behavior_witness :
    ('?' ∉ "/events".toList) ∧
    (paginationPrevDisabled ⟨2, 5, none⟩ = true ↔ (2 : Int) ≤ 1) ∧
    ("next" = "next" →
      QS.lookupKey
          (QS.parseQ (queryOf (paginationOnClick "/events" "a=1" ⟨2, 5, none⟩ "next")).toList)
          (jsOrStr none "page").toList =
        some [some (toString ((2 : Int) + 1)).toList]) ∧
    ("prev" ≠ "next" →
      QS.lookupKey
          (QS.parseQ (queryOf (paginationOnClick "/events" "a=1" ⟨2, 5, none⟩ "prev")).toList)
          (jsOrStr none "page").toList =
        some [some (toString ((2 : Int) - 1)).toList]) :=
  ⟨by decide,
   (pagination_component_behavior ⟨2, 5, none⟩ "/events" "a=1" "next" (by decide)).1,
   fun h => (pagination_component_behavior ⟨2, 5, none⟩ "/events" "a=1" "next"
     (by decide)).2.2.1 h,
   fun h => (pagination_component_behavior ⟨2, 5, none⟩ "/events" "a=1" "prev"
     (by decide)).2.2.2 h⟩

end EventsApp

